import Mathlib

/-!
Verification of the ACK sequencing core of the beats in-memory queue
(src/libbeat/publisher/queue/memqueue/ackloop.go) and of the generic FIFO
list (src/libbeat/common/fifo/fifo.go), via a shallow embedding in Lean 4.

Conventions of the embedding:
* A Go linked FIFO is modelled by the front-to-back list of its values.
* Machine integers that never overflow under the guards present in the
  code (producer IDs, lastACK, counts) are modelled as Nat.
* Mutable per-producer state (the lastACK table) is threaded explicitly
  as a function from producer handles to Nat.
* Channel sends performed by the sequencer (the aggregate-ack callback,
  the deletion-count channel, the callback-wave submission) are recorded
  in an ordered event trace.
* The batchList type used as the pending-batch ledger is declared outside
  the given sources (only its use sites are in ackloop.go); it is modelled
  from the spec, section 4.1, as a plain FIFO of batches with append,
  concat, front, pop, empty and reverse in first-in-first-out order.
-/

namespace Fifo

/-- Model of fifo.FIFO: the front-to-back sequence of values held by the
linked list of nodes. -/
structure FIFO (T : Type) where
  xs : List T
deriving DecidableEq

/-- fifo.go Add: appends a value at the back of the queue. -/
def FIFO.Add {T : Type} (f : FIFO T) (value : T) : FIFO T :=
  ⟨f.xs ++ [value]⟩

/-- fifo.go Empty: the queue is empty exactly when the first pointer is nil,
i.e. when the value sequence is empty. -/
def FIFO.Empty {T : Type} (f : FIFO T) : Bool :=
  f.xs.isEmpty

/-- fifo.go First: first value if present, Go zero value (modelled by
Inhabited.default) when empty; the queue is not modified. -/
def FIFO.First {T : Type} [Inhabited T] (f : FIFO T) : T :=
  match f.xs with
  | [] => default
  | x :: _ => x

/-- fifo.go Remove: drops the first entry, does nothing if empty. -/
def FIFO.Remove {T : Type} (f : FIFO T) : FIFO T :=
  match f.xs with
  | [] => f
  | _ :: rest => ⟨rest⟩

/-- fifo.go ConsumeFirst: result of First paired with the queue after
Remove. -/
def FIFO.ConsumeFirst {T : Type} [Inhabited T] (f : FIFO T) : T × FIFO T :=
  (f.First, f.Remove)

/-- fifo.go Concat, following the source's three branches: if the other
list is empty do nothing; if the receiver is empty take over the other
list wholesale; otherwise link the other list's nodes after the
receiver's last node. -/
def FIFO.Concat {T : Type} (f : FIFO T) (list : FIFO T) : FIFO T :=
  if list.Empty then f
  else if f.Empty then list
  else ⟨f.xs ++ list.xs⟩

/-- The observable effect of the Go call site f.Concat(g) on both
variables: Go passes the argument struct by value, so the receiver is
replaced by the concatenation while the caller's argument variable is
left unchanged. -/
def concatCall {T : Type} (f g : FIFO T) : FIFO T × FIFO T :=
  (f.Concat g, g)

end Fifo

namespace Memqueue

/-- Model of a queue entry as seen by the ACK path: its producer-scoped
sequence number, and the (nullable) reference to the producer that
created it.  Producers are identified by a Nat handle; the handle stands
for the pointer identity of the producer and indexes its mutable
lastACK state. -/
structure Entry where
  producerID : Nat
  producer : Option Nat
deriving DecidableEq

/-- Model of a batch handed to a consumer: its entries (in publish
order) and its completion flag, true once the doneChan of the batch has
fired. -/
structure Batch where
  entries : List Entry
  done : Bool
deriving DecidableEq

/-- The count field of a batch: the number of entries it contains. -/
def Batch.count (b : Batch) : Nat :=
  b.entries.length

/-- The intrusive batchList used as the pending-batch ledger, modelled as
the front-to-back list of batches. -/
abbrev batchList := List Batch

/-- Inner loop of ackLoop.collectAcked: keep popping the ledger front
while its completion channel has fired, stopping at the first pending
batch.  Returns the popped batches (in pop order) and the remaining
ledger. -/
def collectLoop : batchList → batchList × batchList
  | [] => ([], [])
  | b :: rest =>
    if b.done then (b :: (collectLoop rest).1, (collectLoop rest).2)
    else ([], b :: rest)

/-- ackLoop.collectAcked: pop the ledger head unconditionally (it is only
called when the completion channel of the head fired), then pop every
further batch that is contiguous from the head and already complete. -/
def collectAcked : batchList → batchList × batchList
  | [] => ([], [])
  | b :: rest => (b :: (collectLoop rest).1, (collectLoop rest).2)

/-- Pointwise update of the per-producer lastACK table, modelling the
assignment entry.producer.state.lastACK = v. -/
def upd (s : Nat → Nat) (p v : Nat) : Nat → Nat :=
  fun q => if q = p then v else s q

/-- Body of the entry loop of ackLoop.processACK for one visited entry:
skip entries with a nil producer reference; if the producerID is at most
the current lastACK of the producer, clear the reference and queue no
callback; otherwise queue one callback thunk carrying the delta
producerID - lastACK, set lastACK to the producerID, and clear the
reference.  Returns the updated lastACK table, the entry after the
visit, and the queued callbacks (as producer-handle and delta pairs,
standing for the captured closure func() that invokes cb with count). -/
def processEntry (s : Nat → Nat) (e : Entry) : (Nat → Nat) × Entry × List (Nat × Nat) :=
  match e.producer with
  | none => (s, e, [])
  | some p =>
    if e.producerID ≤ s p then (s, { e with producer := none }, [])
    else (upd s p e.producerID, { e with producer := none }, [(p, e.producerID - s p)])

/-- The entry loop of ackLoop.processACK over a whole visit sequence:
entries are visited in list order, the lastACK table is threaded
through, the processed entries and the queued callbacks are collected in
visit order (matching the append-order of ackCallbacks in the code). -/
def processEntries : List Entry → (Nat → Nat) → (Nat → Nat) × List Entry × List (Nat × Nat)
  | [], s => (s, [], [])
  | e :: es, s =>
    ((processEntries es (processEntry s e).1).1,
     (processEntry s e).2.1 :: (processEntries es (processEntry s e).1).2.1,
     (processEntry s e).2.2 ++ (processEntries es (processEntry s e).1).2.2)

/-- The order in which ackLoop.processACK visits entries of a retired
batch list: the list is reversed first, then each popped batch is
traversed from its last entry to its first, which is exactly the
reversal of the global entry order of the list. -/
def visitSeq (lst : batchList) : List Entry :=
  (lst.map Batch.entries).flatten.reverse

/-- The deltas delivered to one producer by a queued callback list, in
queue order. -/
def pDeltas (p : Nat) (cbs : List (Nat × Nat)) : List Nat :=
  cbs.filterMap (fun c => if c.1 = p then some c.2 else none)

/-- The producerIDs of the entries of a visit sequence that hold a live
reference to producer p, in visit order. -/
def entryPIds (p : Nat) (es : List Entry) : List Nat :=
  es.filterMap (fun e => if e.producer = some p then some e.producerID else none)

/-- The producerIDs of the live entries of producer p contained in a
retired batch list. -/
def pIdsIn (p : Nat) (lst : batchList) : List Nat :=
  entryPIds p (visitSeq lst)

/-- A run of the sequencer seen as the sequence of retired batch lists
handed to processACK by successive advancements, with the per-producer
lastACK state threaded through; collects every queued callback in
order. -/
def runProcessACK : List batchList → (Nat → Nat) → (Nat → Nat) × List (Nat × Nat)
  | [], s => (s, [])
  | l :: ls, s =>
    ((runProcessACK ls (processEntries (visitSeq l) s).1).1,
     (processEntries (visitSeq l) s).2.2 ++
       (runProcessACK ls (processEntries (visitSeq l) s).1).2)

/-- Outbound events emitted by one advancement, in emission order: the
aggregate-ack callback invocation, the send on the deletion channel, and
the submission of the callback wave to the callback worker. -/
inductive Ev where
  | agg : Nat → Ev
  | del : Nat → Ev
  | wave : List (Nat × Nat) → Ev
deriving DecidableEq

/-- ackLoop.handleBatchSig: collect the acked prefix of the ledger, sum
its counts; when the sum is positive, invoke the aggregate-ack callback
(when configured), then run processACK, which queues the producer
callbacks, sends the count on the deletion channel and submits the wave.
Returns the remaining ledger, the new lastACK table, the emitted events
in order, and whether the input was unblocked (the unblockCPU call made
when more than one batch was freed). -/
def handleBatchSig (cfg : Bool) (pending : batchList) (s : Nat → Nat) :
    batchList × (Nat → Nat) × List Ev × Bool :=
  if 0 < (((collectAcked pending).1.map Batch.count).sum) then
    ((collectAcked pending).2,
     (processEntries (visitSeq (collectAcked pending).1) s).1,
     (if cfg then [Ev.agg (((collectAcked pending).1.map Batch.count).sum)] else []) ++
       [Ev.del (((collectAcked pending).1.map Batch.count).sum),
        Ev.wave (processEntries (visitSeq (collectAcked pending).1) s).2.2],
     decide (1 < (collectAcked pending).1.length))
  else ((collectAcked pending).2, s, [], false)

/-- State of the ackLoop event loop: the pending-batch ledger, the
per-producer lastACK table, and the trace of outbound events emitted so
far. -/
structure LoopState where
  pending : batchList
  lastACK : Nat → Nat
  trace : List Ev

/-- Delivery of a completion signal for the batch at position i of the
ledger: sets its done flag (the buffered send on its doneChan). -/
def markDone : batchList → Nat → batchList
  | [], _ => []
  | b :: rest, 0 => { b with done := true } :: rest
  | b :: rest, n + 1 => b :: markDone rest n

/-- One iteration of ackLoop.run receiving a completion signal for the
batch at position i: the flag is set, and handleBatchSig runs exactly
when the signal makes the ledger head complete (the select in run only
watches the doneChan of the head, via nextBatchChannel). -/
def seqStep (cfg : Bool) (st : LoopState) (i : Nat) : LoopState :=
  match (markDone st.pending i).head? with
  | some b =>
    if b.done then
      ⟨(handleBatchSig cfg (markDone st.pending i) st.lastACK).1,
       (handleBatchSig cfg (markDone st.pending i) st.lastACK).2.1,
       st.trace ++ (handleBatchSig cfg (markDone st.pending i) st.lastACK).2.2.1⟩
    else { st with pending := markDone st.pending i }
  | none => { st with pending := markDone st.pending i }

/-- The counts sent on the deletion channel within a trace, in order. -/
def delCounts (tr : List Ev) : List Nat :=
  tr.filterMap (fun ev => match ev with | Ev.del n => some n | _ => none)

/-- The callback waves submitted within a trace, in order. -/
def waveCbs (tr : List Ev) : List (List (Nat × Nat)) :=
  tr.filterMap (fun ev => match ev with | Ev.wave w => some w | _ => none)

/-- Scenario batch A of the spec, section 8: entries 1, 2, 3 of the
single producer (handle 0), initially pending. -/
def batchA : Batch :=
  ⟨[⟨1, some 0⟩, ⟨2, some 0⟩, ⟨3, some 0⟩], false⟩

/-- Scenario batch B of the spec, section 8: entries 4, 5 of the single
producer (handle 0), initially pending. -/
def batchB : Batch :=
  ⟨[⟨4, some 0⟩, ⟨5, some 0⟩], false⟩

/-- Scenario initial state: ledger holds A then B, lastACK is 0, no
events emitted yet. -/
def scenario0 : LoopState :=
  ⟨[batchA, batchB], fun _ => 0, []⟩

/-- Scenario after the completion signal of B (ledger position 1)
arrives first. -/
def scenario1 : LoopState :=
  seqStep true scenario0 1

/-- Scenario after the completion signal of A (ledger position 0)
arrives second. -/
def scenario2 : LoopState :=
  seqStep true scenario1 0

/-- Events driving the callback worker loop: a wave submission received
on callbackChan, or a completion notification received on callbacksDone
after a started wave ran all its callbacks.  Callbacks are abstracted by
an arbitrary type. -/
inductive WEvent (α : Type) where
  | submit : List α → WEvent α
  | done : WEvent α

/-- State of callbackWorker.run: the queued waves (pendingCallbacks),
the wave currently executing if any (callbackInProgress plus the wave
handed to the running goroutine), and the callbacks that have finished
executing, in execution order. -/
structure WState (α : Type) where
  pending : List (List α)
  running : Option (List α)
  executed : List α

/-- One select iteration of callbackWorker.run.  A submitted wave starts
immediately when no wave is in progress and is appended to the pending
queue otherwise; a done signal appends the finished wave to the executed
trace and starts the front pending wave if any.  A done signal with no
wave in progress cannot be sent by any goroutine and is rejected
(none). -/
def wStep {α : Type} (s : WState α) : WEvent α → Option (WState α)
  | .submit w =>
    some (match s.running with
          | none => { s with running := some w }
          | some _ => { s with pending := s.pending ++ [w] })
  | .done =>
    match s.running with
    | none => none
    | some w =>
      match s.pending with
      | [] => some ⟨[], none, s.executed ++ w⟩
      | w2 :: rest => some ⟨rest, some w2, s.executed ++ w⟩

/-- The callback worker driven by a sequence of events, from a given
state. -/
def wRun {α : Type} (s : WState α) : List (WEvent α) → Option (WState α)
  | [] => some s
  | ev :: evs =>
    match wStep s ev with
    | none => none
    | some s2 => wRun s2 evs

/-- Initial state of the callback worker: no pending waves, no wave in
progress, nothing executed. -/
def wInit {α : Type} : WState α :=
  ⟨[], none, []⟩

/-- The waves submitted by a worker event sequence, in submission
order. -/
def submittedWaves {α : Type} : List (WEvent α) → List (List α)
  | [] => []
  | .submit w :: evs => w :: submittedWaves evs
  | .done :: evs => submittedWaves evs

end Memqueue

open Memqueue

theorem Fifo.concat_xs {T : Type} (f g : Fifo.FIFO T) :
    (f.Concat g).xs = f.xs ++ g.xs := by
  unfold Fifo.FIFO.Concat Fifo.FIFO.Empty
  rcases f with ⟨fxs⟩
  rcases g with ⟨gxs⟩
  cases gxs with
  | nil => simp
  | cons a tl =>
    cases fxs with
    | nil => simp
    | cons b tl2 => simp

theorem Memqueue.head_dropWhile_false {α : Type} (p : α → Bool) (l : List α) (b : α)
    (h : (l.dropWhile p).head? = some b) : p b = false := by
  induction l with
  | nil => simp [List.dropWhile] at h
  | cons a tl ih =>
    rw [List.dropWhile_cons] at h
    by_cases hp : p a
    · simp [hp] at h
      exact ih h
    · simp [hp] at h
      rw [← h]
      simpa using hp

theorem Memqueue.collectLoop_eq (l : batchList) :
    collectLoop l = (l.takeWhile (fun b => b.done), l.dropWhile (fun b => b.done)) := by
  induction l with
  | nil => rfl
  | cons b rest ih =>
    by_cases hb : b.done
    · simp [collectLoop, hb, ih, List.takeWhile_cons, List.dropWhile_cons]
    · simp [collectLoop, hb, List.takeWhile_cons, List.dropWhile_cons]

/-- C9: FIFO.Concat appends the elements of the other list to the
receiver in their original order, so the resulting sequence is the old
receiver sequence followed by the other list sequence.  However the
second part of the claim fails: the argument is passed by value, so the
caller side otherList is NOT emptied by the call — at the concrete input
f = [1], g = [2], after the call the other list still holds [2] and is
not empty. -/
theorem fifo_concat_counterexample :
    (Fifo.concatCall (Fifo.FIFO.mk [1]) (Fifo.FIFO.mk [2])).2.Empty = false ∧
    (Fifo.concatCall (Fifo.FIFO.mk [1]) (Fifo.FIFO.mk [2])).1.xs = [1, 2] := by
  constructor
  · rfl
  · rfl

/-- C9 (amended): for every pair of FIFO lists, Concat makes the
receiver sequence the old receiver sequence followed by the other list
sequence; the argument is passed by value, so the caller side otherList
variable is left unchanged (ownership of its nodes is transferred by
convention only, not by emptying it). -/
theorem fifo_concat_spec {T : Type} (f g : Fifo.FIFO T) :
    (Fifo.concatCall f g).1.xs = f.xs ++ g.xs ∧ (Fifo.concatCall f g).2 = g :=
  ⟨Fifo.concat_xs f g, rfl⟩

/-- C10: on an empty FIFO, First returns the zero (default) value,
ConsumeFirst returns the zero value and leaves the queue unchanged,
Remove does nothing, and in all cases the queue remains empty; all three
operations are total (no panic). -/
theorem fifo_empty_total {T : Type} [Inhabited T] (f : Fifo.FIFO T)
    (h : f.Empty = true) :
    f.First = (default : T) ∧ f.ConsumeFirst = ((default : T), f) ∧
    f.Remove = f ∧ f.Remove.Empty = true ∧ (f.ConsumeFirst).2.Empty = true := by
  rcases f with ⟨xs⟩
  cases xs with
  | nil =>
    refine ⟨rfl, rfl, rfl, rfl, rfl⟩
  | cons x tl =>
    simp [Fifo.FIFO.Empty, List.isEmpty] at h

/-- Witness for C10 at the concrete empty FIFO of naturals. -/
theorem fifo_empty_total_witness :
    (Fifo.FIFO.mk ([] : List Nat)).First = (default : Nat) ∧
    (Fifo.FIFO.mk ([] : List Nat)).ConsumeFirst = ((default : Nat), Fifo.FIFO.mk ([] : List Nat)) ∧
    (Fifo.FIFO.mk ([] : List Nat)).Remove = Fifo.FIFO.mk ([] : List Nat) ∧
    (Fifo.FIFO.mk ([] : List Nat)).Remove.Empty = true ∧
    ((Fifo.FIFO.mk ([] : List Nat)).ConsumeFirst).2.Empty = true :=
  fifo_empty_total (Fifo.FIFO.mk ([] : List Nat)) rfl

/-- C2: when the completion channel of the ledger head has fired,
collectAcked removes exactly a prefix of the ledger in append order: it
pops the head and then exactly the batches contiguous from the head
whose completion flag is set, stopping at the first incomplete batch;
the popped batches followed by the remaining ledger reassemble the
original ledger, every popped batch after the head is complete, and the
first remaining batch (if any) is incomplete, so a batch is never
retired while an earlier batch is pending. -/
theorem collectAcked_contiguous (hd : Batch) (rest : batchList)
    (hdone : hd.done = true) :
    collectAcked (hd :: rest) =
      (hd :: rest.takeWhile (fun b => b.done), rest.dropWhile (fun b => b.done)) ∧
    (collectAcked (hd :: rest)).1 ++ (collectAcked (hd :: rest)).2 = hd :: rest ∧
    (∀ b ∈ (collectAcked (hd :: rest)).1, b.done = true) ∧
    (∀ b, ((collectAcked (hd :: rest)).2).head? = some b → b.done = false) := by
  have hkey : collectAcked (hd :: rest) =
      (hd :: rest.takeWhile (fun b => b.done), rest.dropWhile (fun b => b.done)) := by
    simp [collectAcked, Memqueue.collectLoop_eq]
  refine ⟨hkey, ?_, ?_, ?_⟩
  · rw [hkey]
    simp [List.takeWhile_append_dropWhile]
  · rw [hkey]
    intro b hb
    rcases List.mem_cons.mp hb with hb | hb
    · exact hb ▸ hdone
    · exact List.mem_takeWhile_imp hb
  · rw [hkey]
    intro b hb
    exact Memqueue.head_dropWhile_false (fun c => c.done) rest b hb

/-- Witness for C2 on a concrete ledger: head done, second done, third
not done, fourth done (the fourth must not be retired). -/
theorem collectAcked_contiguous_witness :
    (Batch.mk [] true).done = true ∧
    collectAcked
        [Batch.mk [] true, Batch.mk [Entry.mk 1 (some 0)] true,
         Batch.mk [] false, Batch.mk [] true] =
      ([Batch.mk [] true, Batch.mk [Entry.mk 1 (some 0)] true],
       [Batch.mk [] false, Batch.mk [] true]) := by
  refine ⟨rfl, ?_⟩
  have h := (collectAcked_contiguous (Batch.mk [] true)
    [Batch.mk [Entry.mk 1 (some 0)] true,
     Batch.mk [] false, Batch.mk [] true] rfl).1
  rw [h]
  rfl

theorem Memqueue.processEntry_skip (s : Nat → Nat) (e : Entry) (p : Nat)
    (hp : e.producer = some p) (hle : e.producerID ≤ s p) :
    processEntry s e = (s, { e with producer := none }, []) := by
  simp [processEntry, hp, hle]

theorem Memqueue.processEntry_credit (s : Nat → Nat) (e : Entry) (p : Nat)
    (hp : e.producer = some p) (hgt : s p < e.producerID) :
    processEntry s e =
      (upd s p e.producerID, { e with producer := none },
       [(p, e.producerID - s p)]) := by
  simp [processEntry, hp, Nat.not_le.mpr hgt]

theorem Memqueue.upd_self (s : Nat → Nat) (p v : Nat) : upd s p v p = v := by
  simp [upd]

theorem Memqueue.upd_ne (s : Nat → Nat) (p v q : Nat) (h : q ≠ p) :
    upd s p v q = s q := by
  simp [upd, h]

theorem Memqueue.processEntry_mono (s : Nat → Nat) (e : Entry) (p : Nat) :
    s p ≤ (processEntry s e).1 p := by
  rcases he : e.producer with _ | q
  · simp [processEntry, he]
  · by_cases hle : e.producerID ≤ s q
    · simp [processEntry, he, hle]
    · rw [Memqueue.processEntry_credit s e q he (Nat.not_le.mp hle)]
      show s p ≤ upd s q e.producerID p
      by_cases hpq : p = q
      · subst hpq
        rw [Memqueue.upd_self]
        exact Nat.le_of_lt (Nat.not_le.mp hle)
      · rw [Memqueue.upd_ne s q _ p hpq]

theorem Memqueue.processEntry_strict (s : Nat → Nat) (e : Entry) (p : Nat)
    (hne : (processEntry s e).1 p ≠ s p) : s p < (processEntry s e).1 p := by
  rcases he : e.producer with _ | q
  · simp [processEntry, he] at hne
  · by_cases hle : e.producerID ≤ s q
    · rw [Memqueue.processEntry_skip s e q he hle] at hne
      exact absurd rfl hne
    · rw [Memqueue.processEntry_credit s e q he (Nat.not_le.mp hle)] at hne ⊢
      show s p < upd s q e.producerID p
      by_cases hpq : p = q
      · subst hpq
        rw [Memqueue.upd_self]
        exact Nat.not_le.mp hle
      · exfalso
        apply hne
        show upd s q e.producerID p = s p
        rw [Memqueue.upd_ne s q _ p hpq]

theorem Memqueue.processEntries_mono (es : List Entry) (s : Nat → Nat) (p : Nat) :
    s p ≤ (processEntries es s).1 p := by
  induction es generalizing s with
  | nil => exact Nat.le_refl _
  | cons e tl ih =>
    calc s p ≤ (processEntry s e).1 p := processEntry_mono s e p
      _ ≤ (processEntries tl (processEntry s e).1).1 p := ih _
      _ = (processEntries (e :: tl) s).1 p := rfl

theorem Memqueue.runProcessACK_mono (runs : List batchList) (s : Nat → Nat) (p : Nat) :
    s p ≤ (runProcessACK runs s).1 p := by
  induction runs generalizing s with
  | nil => exact Nat.le_refl _
  | cons l ls ih =>
    calc s p ≤ (processEntries (visitSeq l) s).1 p := processEntries_mono _ s p
      _ ≤ (runProcessACK ls (processEntries (visitSeq l) s).1).1 p := ih _
      _ = (runProcessACK (l :: ls) s).1 p := rfl

/-- C5: whenever processACK visits an entry holding a live producer
reference whose producerID is strictly greater than the current lastACK
of its producer, it queues exactly one callback thunk whose delta is the
producerID minus the lastACK read at visit time, sets the lastACK of
that producer to the producerID before any later visit, and clears the
producer reference of the entry. -/
theorem processACK_delta (e : Entry) (es : List Entry) (s : Nat → Nat) (p : Nat)
    (hp : e.producer = some p) (hgt : s p < e.producerID) :
    processEntries (e :: es) s =
      ((processEntries es (upd s p e.producerID)).1,
       { e with producer := none } ::
         (processEntries es (upd s p e.producerID)).2.1,
       (p, e.producerID - s p) ::
         (processEntries es (upd s p e.producerID)).2.2) := by
  have hv := Memqueue.processEntry_credit s e p hp hgt
  simp [processEntries, hv]

/-- Witness for C5: a single visited entry with producerID 3 and live
producer 0, starting from lastACK 0. -/
theorem processACK_delta_witness :
    processEntries [Entry.mk 3 (some 0)] (fun _ => 0) =
      (upd (fun _ => 0) 0 3, [Entry.mk 3 none], [(0, 3)]) := by
  exact processACK_delta (Entry.mk 3 (some 0)) [] (fun _ => 0) 0 rfl (by decide)

/-- C4: whenever processACK visits an entry whose producerID is at most
the current lastACK of its producer, it clears the producer reference of
the entry and queues no callback; consequently resolving two batches
that both reference the same not-yet-acknowledged entry queues exactly
one callback credit for that entry, never two. -/
theorem processACK_idempotent :
    (∀ (e : Entry) (es : List Entry) (s : Nat → Nat) (p : Nat),
      e.producer = some p → e.producerID ≤ s p →
      processEntries (e :: es) s =
        ((processEntries es s).1,
         { e with producer := none } :: (processEntries es s).2.1,
         (processEntries es s).2.2)) ∧
    (∀ (e : Entry) (s : Nat → Nat) (p : Nat) (d1 d2 : Bool),
      e.producer = some p → s p < e.producerID →
      (processEntries (visitSeq [Batch.mk [e] d1, Batch.mk [e] d2]) s).2.2 =
        [(p, e.producerID - s p)]) := by
  constructor
  · intro e es s p hp hle
    have hv := Memqueue.processEntry_skip s e p hp hle
    simp [processEntries, hv]
  · intro e s p d1 d2 hp hgt
    have hv1 := Memqueue.processEntry_credit s e p hp hgt
    have hv2 : processEntry (upd s p e.producerID) e =
        (upd s p e.producerID, { e with producer := none }, []) := by
      apply Memqueue.processEntry_skip _ _ p hp
      simp [upd]
    simp [visitSeq, processEntries, hv1, hv2]

/-- Witness for C4: the skip branch at an entry with producerID 2 and
lastACK 5, and the two-batch overlap at an entry with producerID 7,
producer 1 and lastACK 4, credited exactly once with delta 3. -/
theorem processACK_idempotent_witness :
    (processEntries [Entry.mk 2 (some 0)] (fun _ => 5) =
      ((processEntries [] (fun _ => 5)).1,
       Entry.mk 2 none :: (processEntries [] (fun _ => 5)).2.1,
       (processEntries [] (fun _ => 5)).2.2)) ∧
    (processEntries (visitSeq [Batch.mk [Entry.mk 7 (some 1)] true,
        Batch.mk [Entry.mk 7 (some 1)] false]) (fun _ => 4)).2.2 = [(1, 3)] :=
  ⟨processACK_idempotent.1 (Entry.mk 2 (some 0)) [] (fun _ => 5) 0 rfl (by decide),
   processACK_idempotent.2 (Entry.mk 7 (some 1)) (fun _ => 4) 1 true false rfl (by decide)⟩

/-- C8: the lastACK of a producer never decreases: each visited entry
leaves it equal or larger, whole visit sequences and whole runs of
successive advancements leave it equal or larger, and every visit that
changes it replaces it with a strictly greater value. -/
theorem lastACK_monotone :
    (∀ (e : Entry) (s : Nat → Nat) (p : Nat), s p ≤ (processEntry s e).1 p) ∧
    (∀ (es : List Entry) (s : Nat → Nat) (p : Nat),
      s p ≤ (processEntries es s).1 p) ∧
    (∀ (runs : List batchList) (s : Nat → Nat) (p : Nat),
      s p ≤ (runProcessACK runs s).1 p) ∧
    (∀ (e : Entry) (s : Nat → Nat) (p : Nat),
      (processEntry s e).1 p ≠ s p → s p < (processEntry s e).1 p) :=
  ⟨fun e s p => Memqueue.processEntry_mono s e p,
   fun es s p => Memqueue.processEntries_mono es s p,
   fun runs s p => Memqueue.runProcessACK_mono runs s p,
   fun e s p h => Memqueue.processEntry_strict s e p h⟩

/-- Witness for C8: the strict-increase part at a concrete visit that
moves lastACK of producer 0 from 0 to 3. -/
theorem lastACK_monotone_witness :
    ((fun _ => 0) : Nat → Nat) 0 <
      (processEntry (fun _ => 0) (Entry.mk 3 (some 0))).1 0 :=
  lastACK_monotone.2.2.2 (Entry.mk 3 (some 0)) (fun _ => 0) 0 (by decide)

/-- C7 counterexample: an advancement whose popped batch set is
non-empty (one retired batch with zero entries) emits no aggregate-ack
call and no send on the deletion channel, because handleBatchSig guards
on a positive entry count, not on the popped set being non-empty. -/
theorem advancement_outbound_counterexample :
    (collectAcked [Batch.mk [] true]).1 = [Batch.mk [] true] ∧
    (handleBatchSig true [Batch.mk [] true] (fun _ => 0)).2.2.1 = [] :=
  ⟨rfl, rfl⟩

/-- C7 (amended): on every advancement whose popped batches contain at
least one entry (equivalently, whose summed count N is positive), with
the aggregate-ack callback configured, the emitted events are exactly:
one aggregate-ack invocation with N, then one send of N on the deletion
channel, then the submission of the per-producer callback wave — so the
aggregate-ack callback runs exactly once with N before any per-producer
callback can run, and N is sent exactly once. -/
theorem advancement_outbound (pending : batchList) (s : Nat → Nat)
    (hpos : 0 < (((collectAcked pending).1.map Batch.count).sum)) :
    (handleBatchSig true pending s).2.2.1 =
      [Ev.agg (((collectAcked pending).1.map Batch.count).sum),
       Ev.del (((collectAcked pending).1.map Batch.count).sum),
       Ev.wave (processEntries (visitSeq (collectAcked pending).1) s).2.2] := by
  simp [handleBatchSig, hpos]

/-- Witness for C7 at a concrete ledger holding one completed batch with
a single entry. -/
theorem advancement_outbound_witness :
    (handleBatchSig true [Batch.mk [Entry.mk 1 (some 0)] true] (fun _ => 0)).2.2.1 =
      [Ev.agg 1, Ev.del 1, Ev.wave [(0, 1)]] :=
  advancement_outbound [Batch.mk [Entry.mk 1 (some 0)] true] (fun _ => 0) (by decide)

/-- C3 counterexample: in the spec scenario (producer 0 published
entries 1..5, batches A = 1,2,3 then B = 4,5, B completing before A) the
code does NOT retire A alone and report deletions 3 then 2: once the
completion of A is observed, collectAcked also pops the already-complete
B, so a single advancement reports one deletion count 5 — not the
sequence 3 then 2 — and credits the producer once with delta 5. -/
theorem scenario_counterexample :
    scenario1.trace = [] ∧ scenario1.lastACK 0 = 0 ∧
    delCounts scenario2.trace = [5] ∧ delCounts scenario2.trace ≠ [3, 2] ∧
    waveCbs scenario2.trace = [[(0, 5)]] ∧ scenario2.lastACK 0 = 5 ∧
    scenario2.pending = [] := by
  refine ⟨rfl, rfl, rfl, by decide, rfl, rfl, rfl⟩

/-- C3 (amended): in the scenario, no advancement occurs until A
completes (after the completion signal of B the trace is empty, lastACK
is still 0, and the ledger still holds A pending and B complete); when
the completion of A is then observed, a single advancement retires both
A and B together, invoking the aggregate-ack callback with 5, reporting
one deletion count 5, submitting one wave crediting producer 0 once with
delta 5, and leaving lastACK at 5 with an empty ledger — deletion counts
aggregate the per-batch counts of the retired contiguous prefix in
ledger-append order. -/
theorem scenario_amended :
    scenario1.trace = [] ∧ scenario1.lastACK 0 = 0 ∧
    scenario1.pending = [batchA, Batch.mk batchB.entries true] ∧
    scenario2.trace = [Ev.agg 5, Ev.del 5, Ev.wave [(0, 5)]] ∧
    scenario2.lastACK 0 = 5 ∧ scenario2.pending = [] :=
  ⟨rfl, rfl, rfl, rfl, rfl, rfl⟩

theorem Memqueue.pDeltas_append (p : Nat) (l1 l2 : List (Nat × Nat)) :
    pDeltas p (l1 ++ l2) = pDeltas p l1 ++ pDeltas p l2 := by
  simp [pDeltas, List.filterMap_append]

theorem Memqueue.processEntry_delta_sum (s : Nat → Nat) (e : Entry) (p : Nat) :
    s p + (pDeltas p (processEntry s e).2.2).sum = (processEntry s e).1 p := by
  rcases he : e.producer with _ | q
  · simp [processEntry, he, pDeltas]
  · by_cases hle : e.producerID ≤ s q
    · rw [Memqueue.processEntry_skip s e q he hle]
      simp [pDeltas]
    · rw [Memqueue.processEntry_credit s e q he (Nat.not_le.mp hle)]
      show s p + (pDeltas p [(q, e.producerID - s q)]).sum = upd s q e.producerID p
      by_cases hpq : p = q
      · subst hpq
        rw [Memqueue.upd_self]
        have := Nat.not_le.mp hle
        simp [pDeltas]
        omega
      · rw [Memqueue.upd_ne s q _ p hpq]
        have : pDeltas p [(q, e.producerID - s q)] = [] := by
          simp [pDeltas]
          omega
        rw [this]
        simp

theorem Memqueue.processEntries_delta_sum (es : List Entry) (s : Nat → Nat) (p : Nat) :
    s p + (pDeltas p (processEntries es s).2.2).sum = (processEntries es s).1 p := by
  induction es generalizing s with
  | nil => simp [processEntries, pDeltas]
  | cons e tl ih =>
    have hstep := Memqueue.processEntry_delta_sum s e p
    have htl := ih ((processEntry s e).1)
    calc s p + (pDeltas p (processEntries (e :: tl) s).2.2).sum
        = s p + ((pDeltas p (processEntry s e).2.2).sum +
            (pDeltas p (processEntries tl (processEntry s e).1).2.2).sum) := by
          show s p + (pDeltas p ((processEntry s e).2.2 ++
            (processEntries tl (processEntry s e).1).2.2)).sum = _
          rw [Memqueue.pDeltas_append, List.sum_append]
      _ = (processEntries tl (processEntry s e).1).1 p := by omega
      _ = (processEntries (e :: tl) s).1 p := rfl

theorem Memqueue.runProcessACK_delta_sum (runs : List batchList) (s : Nat → Nat) (p : Nat) :
    s p + (pDeltas p (runProcessACK runs s).2).sum = (runProcessACK runs s).1 p := by
  induction runs generalizing s with
  | nil => simp [runProcessACK, pDeltas]
  | cons l ls ih =>
    have hstep := Memqueue.processEntries_delta_sum (visitSeq l) s p
    have htl := ih ((processEntries (visitSeq l) s).1)
    calc s p + (pDeltas p (runProcessACK (l :: ls) s).2).sum
        = s p + ((pDeltas p (processEntries (visitSeq l) s).2.2).sum +
            (pDeltas p (runProcessACK ls (processEntries (visitSeq l) s).1).2).sum) := by
          show s p + (pDeltas p ((processEntries (visitSeq l) s).2.2 ++
            (runProcessACK ls (processEntries (visitSeq l) s).1).2)).sum = _
          rw [Memqueue.pDeltas_append, List.sum_append]
      _ = (runProcessACK ls (processEntries (visitSeq l) s).1).1 p := by omega
      _ = (runProcessACK (l :: ls) s).1 p := rfl

theorem Memqueue.processEntry_state_at (s : Nat → Nat) (e : Entry) (p : Nat) :
    (processEntry s e).1 p =
      if e.producer = some p then max (s p) e.producerID else s p := by
  rcases he : e.producer with _ | q
  · simp [processEntry, he]
  · by_cases hle : e.producerID ≤ s q
    · rw [Memqueue.processEntry_skip s e q he hle]
      show s p = _
      by_cases hpq : q = p
      · subst hpq
        simp [he]
        omega
      · simp [he, hpq]
    · rw [Memqueue.processEntry_credit s e q he (Nat.not_le.mp hle)]
      show upd s q e.producerID p = _
      by_cases hpq : q = p
      · subst hpq
        rw [Memqueue.upd_self]
        have := Nat.not_le.mp hle
        simp [he]
        omega
      · rw [Memqueue.upd_ne s q _ p (fun h => hpq h.symm)]
        simp [he, hpq]

theorem Memqueue.processEntries_pids_max (es : List Entry) (s : Nat → Nat) (p : Nat) :
    (processEntries es s).1 p = (entryPIds p es).foldl max (s p) := by
  induction es generalizing s with
  | nil => rfl
  | cons e tl ih =>
    have hst := Memqueue.processEntry_state_at s e p
    show (processEntries tl (processEntry s e).1).1 p = _
    rw [ih ((processEntry s e).1), hst]
    by_cases hp : e.producer = some p
    · rw [if_pos hp]
      have hids : entryPIds p (e :: tl) = e.producerID :: entryPIds p tl := by
        simp [entryPIds, List.filterMap_cons, hp]
      rw [hids]
      rfl
    · rw [if_neg hp]
      have hids : entryPIds p (e :: tl) = entryPIds p tl := by
        simp [entryPIds, List.filterMap_cons, hp]
      rw [hids]

theorem Memqueue.runProcessACK_pids_max (runs : List batchList) (s : Nat → Nat) (p : Nat) :
    (runProcessACK runs s).1 p =
      ((runs.map (pIdsIn p)).flatten).foldl max (s p) := by
  induction runs generalizing s with
  | nil => rfl
  | cons l ls ih =>
    show (runProcessACK ls (processEntries (visitSeq l) s).1).1 p = _
    rw [ih ((processEntries (visitSeq l) s).1),
        Memqueue.processEntries_pids_max (visitSeq l) s p]
    show _ = ((pIdsIn p l ++ (ls.map (pIdsIn p)).flatten).foldl max (s p))
    rw [List.foldl_append]
    rfl

theorem Memqueue.le_foldl_max (l : List Nat) (a : Nat) : a ≤ l.foldl max a := by
  induction l generalizing a with
  | nil => exact Nat.le_refl a
  | cons x tl ih => exact le_trans (le_max_left a x) (ih (max a x))

theorem Memqueue.foldl_max_le (l : List Nat) (a m : Nat) (ha : a ≤ m)
    (h : ∀ x ∈ l, x ≤ m) : l.foldl max a ≤ m := by
  induction l generalizing a with
  | nil => exact ha
  | cons x tl ih =>
    refine ih (max a x) (max_le ha (h x (List.mem_cons_self x tl))) ?_
    intro y hy
    exact h y (List.mem_cons_of_mem x hy)

theorem Memqueue.mem_le_foldl_max (l : List Nat) (a x : Nat) (hx : x ∈ l) :
    x ≤ l.foldl max a := by
  induction l generalizing a with
  | nil => cases hx
  | cons y tl ih =>
    rcases List.mem_cons.mp hx with h | h
    · subst h
      exact le_trans (le_max_right a x) (Memqueue.le_foldl_max tl (max a x))
    · exact ih _ h

/-- C1: conservation — for any producer p, over any run of the sequencer
(any sequence of retired batch lists handed to processACK with the
lastACK state threaded through), the deltas passed to the callback of p
by the queued thunks sum to exactly the number of distinct entries of p
contained in the retired batches; each distinct entry is credited
exactly once, none twice and none skipped.  The hypothesis states the
publish discipline of the queue: the distinct producerIDs of the live
entries of p across the run form exactly the contiguous range from
lastACK + 1 up to some m (producer IDs are issued consecutively and
batches retire in publish order, so acknowledged entries of p are always
a gap-free range right above the initial lastACK). -/
theorem ack_conservation (runs : List batchList) (s : Nat → Nat) (p m : Nat)
    (h : ((runs.map (pIdsIn p)).flatten).toFinset = Finset.Icc (s p + 1) m) :
    (pDeltas p (runProcessACK runs s).2).sum =
      ((runs.map (pIdsIn p)).flatten).toFinset.card := by
  have hsum := Memqueue.runProcessACK_delta_sum runs s p
  have hmax := Memqueue.runProcessACK_pids_max runs s p
  rw [h, Nat.card_Icc]
  by_cases hm : m ≤ s p
  · have hempty : ((runs.map (pIdsIn p)).flatten).toFinset = ∅ := by
      rw [h]
      exact Finset.Icc_eq_empty (by omega)
    have hnil : ((runs.map (pIdsIn p)).flatten) = [] :=
      List.toFinset_eq_empty_iff _ |>.mp hempty
    rw [hnil] at hmax
    simp only [List.foldl_nil] at hmax
    omega
  · push_neg at hm
    have hmem : m ∈ ((runs.map (pIdsIn p)).flatten) := by
      have : m ∈ ((runs.map (pIdsIn p)).flatten).toFinset := by
        rw [h]
        exact Finset.mem_Icc.mpr ⟨by omega, Nat.le_refl m⟩
      simpa using this
    have hub : ∀ x ∈ ((runs.map (pIdsIn p)).flatten), x ≤ m := by
      intro x hx
      have : x ∈ ((runs.map (pIdsIn p)).flatten).toFinset := List.mem_toFinset.mpr hx
      rw [h] at this
      exact (Finset.mem_Icc.mp this).2
    have h1 := Memqueue.foldl_max_le ((runs.map (pIdsIn p)).flatten) (s p) m
      (by omega) hub
    have h2 := Memqueue.mem_le_foldl_max ((runs.map (pIdsIn p)).flatten) (s p) m hmem
    omega

/-- Witness for C1: a run of two advancements, the first retiring one
batch holding entries 1 and 2 of producer 0, the second retiring one
batch holding entry 3; the deltas delivered to producer 0 sum to 3, the
number of its distinct acknowledged entries. -/
theorem ack_conservation_witness :
    (pDeltas 0 (runProcessACK
        [[Batch.mk [Entry.mk 1 (some 0), Entry.mk 2 (some 0)] true],
         [Batch.mk [Entry.mk 3 (some 0)] true]] (fun _ => 0)).2).sum =
      (([[Batch.mk [Entry.mk 1 (some 0), Entry.mk 2 (some 0)] true],
         [Batch.mk [Entry.mk 3 (some 0)] true]].map (pIdsIn 0)).flatten).toFinset.card :=
  ack_conservation
    [[Batch.mk [Entry.mk 1 (some 0), Entry.mk 2 (some 0)] true],
     [Batch.mk [Entry.mk 3 (some 0)] true]] (fun _ => 0) 0 3 (by decide)

theorem Memqueue.take_drop_cons {α : Type} (l : List α) (k : Nat) (x : α) (t : List α)
    (h : l.drop k = x :: t) :
    l.take (k + 1) = l.take k ++ [x] ∧ l.drop (k + 1) = t := by
  induction l generalizing k with
  | nil => simp at h
  | cons a tl ih =>
    cases k with
    | zero =>
      have h0 : a :: tl = x :: t := h
      cases h0
      exact ⟨rfl, rfl⟩
    | succ n =>
      have h2 : tl.drop n = x :: t := h
      obtain ⟨h3, h4⟩ := ih n h2
      constructor
      · show a :: tl.take (n + 1) = (a :: tl.take n) ++ [x]
        rw [h3]
        rfl
      · exact h4

theorem Memqueue.wStep_inv {α : Type} (sub : List (List α)) (s s2 : WState α)
    (ev : WEvent α) (k : Nat)
    (hexec : s.executed = (sub.take k).flatten)
    (hrest : (s.running = none ∧ s.pending = [] ∧ k = sub.length) ∨
      (∃ w, s.running = some w ∧ sub.drop k = w :: s.pending))
    (hstep : wStep s ev = some s2) :
    ∃ k2, s2.executed = ((sub ++ submittedWaves [ev]).take k2).flatten ∧
      ((s2.running = none ∧ s2.pending = [] ∧
          k2 = (sub ++ submittedWaves [ev]).length) ∨
       (∃ w2, s2.running = some w2 ∧
         (sub ++ submittedWaves [ev]).drop k2 = w2 :: s2.pending)) := by
  obtain ⟨pend, run, ex⟩ := s
  have hexec2 : ex = (sub.take k).flatten := hexec
  cases ev with
  | submit w =>
    have hsw : submittedWaves [WEvent.submit w] = [w] := rfl
    rw [hsw]
    cases run with
    | none =>
      have hs2 : s2 = ⟨pend, some w, ex⟩ := by
        have hx : some (⟨pend, some w, ex⟩ : WState α) = some s2 := hstep
        exact (Option.some.inj hx).symm
      subst hs2
      rcases hrest with ⟨_, hpend, hk⟩ | ⟨w0, hw0, _⟩
      · have hpend2 : pend = [] := hpend
        refine ⟨k, ?_, Or.inr ⟨w, rfl, ?_⟩⟩
        · show ex = ((sub ++ [w]).take k).flatten
          rw [hexec2, List.take_append_of_le_length (le_of_eq hk)]
        · show (sub ++ [w]).drop k = w :: pend
          subst hk
          rw [List.drop_left, hpend2]
      · exact Option.noConfusion hw0
    | some w0 =>
      have hs2 : s2 = ⟨pend ++ [w], some w0, ex⟩ := by
        have hx : some (⟨pend ++ [w], some w0, ex⟩ : WState α) = some s2 := hstep
        exact (Option.some.inj hx).symm
      subst hs2
      rcases hrest with ⟨hnone, _, _⟩ | ⟨w1, hw1, hdrop⟩
      · exact Option.noConfusion hnone
      · have hw01 : w1 = w0 := (Option.some.inj hw1).symm
        have hdropX : sub.drop k = w0 :: pend := by
          rw [← hw01]
          exact hdrop
        have hklt : k < sub.length := by
          by_contra hge
          push_neg at hge
          rw [List.drop_eq_nil_iff.mpr hge] at hdropX
          exact List.noConfusion hdropX
        refine ⟨k, ?_, Or.inr ⟨w0, rfl, ?_⟩⟩
        · show ex = ((sub ++ [w]).take k).flatten
          rw [hexec2, List.take_append_of_le_length (le_of_lt hklt)]
        · show (sub ++ [w]).drop k = w0 :: (pend ++ [w])
          rw [List.drop_append_of_le_length (le_of_lt hklt), hdropX]
          rfl
  | done =>
    have hsw : submittedWaves [(WEvent.done : WEvent α)] = [] := rfl
    rw [hsw, List.append_nil]
    cases run with
    | none => exact Option.noConfusion hstep
    | some w0 =>
      rcases hrest with ⟨hnone, _, _⟩ | ⟨w1, hw1, hdrop⟩
      · exact Option.noConfusion hnone
      · have hw01 : w1 = w0 := (Option.some.inj hw1).symm
        have hdropX : sub.drop k = w0 :: pend := by
          rw [← hw01]
          exact hdrop
        cases pend with
        | nil =>
          have hs2 : s2 = ⟨[], none, ex ++ w0⟩ := by
            have hx : some (⟨[], none, ex ++ w0⟩ : WState α) = some s2 := hstep
            exact (Option.some.inj hx).symm
          subst hs2
          obtain ⟨htake, hdrop2⟩ := Memqueue.take_drop_cons sub k w0 [] hdropX
          have hklt : k < sub.length := by
            by_contra hge
            push_neg at hge
            rw [List.drop_eq_nil_iff.mpr hge] at hdropX
            exact List.noConfusion hdropX
          have hlen : sub.length = k + 1 := by
            have hle := List.drop_eq_nil_iff.mp hdrop2
            omega
          refine ⟨k + 1, ?_, Or.inl ⟨rfl, rfl, hlen.symm⟩⟩
          show ex ++ w0 = (sub.take (k + 1)).flatten
          rw [hexec2, htake]
          simp [List.flatten_append]
        | cons w2 rest =>
          have hs2 : s2 = ⟨rest, some w2, ex ++ w0⟩ := by
            have hx : some (⟨rest, some w2, ex ++ w0⟩ : WState α) = some s2 := hstep
            exact (Option.some.inj hx).symm
          subst hs2
          obtain ⟨htake, hdrop2⟩ := Memqueue.take_drop_cons sub k w0 (w2 :: rest) hdropX
          refine ⟨k + 1, ?_, Or.inr ⟨w2, rfl, hdrop2⟩⟩
          show ex ++ w0 = (sub.take (k + 1)).flatten
          rw [hexec2, htake]
          simp [List.flatten_append]

theorem Memqueue.wRun_inv {α : Type} (evs : List (WEvent α)) (sub : List (List α))
    (s s2 : WState α) (k : Nat)
    (hexec : s.executed = (sub.take k).flatten)
    (hrest : (s.running = none ∧ s.pending = [] ∧ k = sub.length) ∨
      (∃ w, s.running = some w ∧ sub.drop k = w :: s.pending))
    (hrun : wRun s evs = some s2) :
    ∃ k2, s2.executed = ((sub ++ submittedWaves evs).take k2).flatten ∧
      ((s2.running = none ∧ s2.pending = [] ∧
          k2 = (sub ++ submittedWaves evs).length) ∨
       (∃ w2, s2.running = some w2 ∧
         (sub ++ submittedWaves evs).drop k2 = w2 :: s2.pending)) := by
  induction evs generalizing sub s k with
  | nil =>
    have hs : s = s2 := Option.some.inj hrun
    subst hs
    exact ⟨k, by simpa [submittedWaves] using hexec,
      by simpa [submittedWaves] using hrest⟩
  | cons ev evs ih =>
    cases hstep : wStep s ev with
    | none =>
      simp only [wRun, hstep] at hrun
      exact Option.noConfusion hrun
    | some smid =>
      simp only [wRun, hstep] at hrun
      obtain ⟨kmid, hexec2, hrest2⟩ := Memqueue.wStep_inv sub s smid ev k hexec hrest hstep
      have hres := ih (sub ++ submittedWaves [ev]) smid kmid hexec2 hrest2 hrun
      have hsw : submittedWaves (ev :: evs) = submittedWaves [ev] ++ submittedWaves evs := by
        cases ev <;> rfl
      rw [hsw, ← List.append_assoc]
      exact hres

/-- C6: ordering of the callback worker.  The worker is modelled as the
state machine of callbackWorker.run: a submitted wave starts immediately
only when no wave is executing (at most one wave executes at a time, by
construction of the running field), a wave submitted while another
executes is appended to the pending queue, and on completion the front
pending wave is started.  For every valid event sequence, the callbacks
executed so far are exactly the concatenation of a prefix of the
submitted waves in submission order — so no callback of a later wave
runs before every callback of an earlier wave, and callbacks within a
wave run in the order provided. -/
theorem dispatcher_ordering {α : Type} (evs : List (WEvent α)) (s : WState α)
    (h : wRun wInit evs = some s) :
    ∃ k, s.executed = ((submittedWaves evs).take k).flatten := by
  obtain ⟨k2, hexec, _⟩ :=
    Memqueue.wRun_inv evs [] wInit s 0 rfl (Or.inl ⟨rfl, rfl, rfl⟩) h
  exact ⟨k2, by simpa using hexec⟩

/-- Witness for C6: waves [1, 2] then [3] submitted back to back (the
second while the first is executing), then two completions; the executed
callbacks are 1, 2, 3 — a prefix concatenation of the submitted waves in
order. -/
theorem dispatcher_ordering_witness :
    ∃ k, (WState.mk ([] : List (List Nat)) none [1, 2, 3]).executed =
      ((submittedWaves [WEvent.submit [1, 2], WEvent.submit [3],
        WEvent.done, WEvent.done]).take k).flatten :=
  dispatcher_ordering
    [WEvent.submit [1, 2], WEvent.submit [3], WEvent.done, WEvent.done]
    (WState.mk ([] : List (List Nat)) none [1, 2, 3]) rfl
